import Mathlib

/-!
# Verification of the baroclinic neutral-mode computation

A shallow embedding of `oceanmodes/baroclinic.py`: the topography-aware
truncation of an (depth, N²) profile, the staggered-grid assembly of the
discretized Sturm–Liouville operator, and the post-processing of the
eigenpairs returned by the external sparse eigensolver.

Numbers are modelled as exact rationals (`ℚ`); a possibly-missing (NaN or
masked) N² sample is an `Option ℚ`, with `none` standing for any non-finite
value, so that NumPy's `isfinite` test becomes `Option.isSome`.  Errors
(`raise ValueError(...)` in the source) are modelled with `Except String`.
The external `scipy.sparse.linalg.eigs` call is a boundary: the embedding
models the assembled matrix handed to it and the post-processing applied to
whatever eigenpairs it returns.
-/

namespace Oceanmodes

/-- `np.diff` on a 1-D array: consecutive differences. -/
def diffs (l : List ℚ) : List ℚ :=
  (l.zip l.tail).map (fun p => p.2 - p.1)

/-- The number of transitions between unequal consecutive entries of a
boolean sequence: `np.diff(mask).sum()` for a boolean `mask`, where the
difference of two booleans is their XOR. -/
def countTransitions : List Bool → ℕ
  | [] => 0
  | [_] => 0
  | a :: b :: rest => (if a ≠ b then 1 else 0) + countTransitions (b :: rest)

/-- The validity mask of an N² profile: `True` marks a non-finite entry,
as in `np.ma.masked_invalid(f).mask`. -/
def invalidMask (f : List (Option ℚ)) : List Bool :=
  f.map (fun v => !v.isSome)

/-- `_maybe_truncate_above_topography(z, f)` from the source:
checks the shapes, returns the input unchanged when no entry of `f` is
non-finite, raises when the final entry is masked but the mask is not a
single trailing block, and otherwise drops the masked entries of both
arrays. -/
def maybeTruncateAboveTopography (z : List ℚ) (f : List (Option ℚ)) :
    Except String (List ℚ × List (Option ℚ)) :=
  if z.length ≠ f.length then
    .error "z and f must have the same length"
  else
    let mask := invalidMask f
    if mask.count true = 0 then
      .ok (z, f)
    else if mask.getD (mask.length - 1) false = true ∧ countTransitions mask ≠ 1 then
      .error "topographic mask should be monotonic"
    else
      .ok ((z.zip f).filterMap (fun p => if p.2.isSome then some p.1 else none),
           f.filter (fun v => v.isSome))

/-- The face-point depths
`zf = np.hstack([0, 0.5*(zc[1:]+zc[:-1]), depth])`:
surface at 0, midpoints of adjacent centers, bottom at `depth`. -/
def zfOf (zc : List ℚ) (depth : ℚ) : List ℚ :=
  0 :: ((zc.zip zc.tail).map (fun p => (p.1 + p.2) / 2) ++ [depth])

/-- The resolved total water-column depth: the supplied value when present,
otherwise `z[-1] + dzc[-1]/2` (extrapolation half a cell past the last
center). -/
def resolvedDepth (zc : List ℚ) (depth? : Option ℚ) : ℚ :=
  depth?.getD
    (zc.getD (zc.length - 1) 0 + (diffs zc).getD ((diffs zc).length - 1) 0 / 2)

/-- One point update of the matrix under assembly: `L[r, c] = v`. -/
def setEntry (M : ℕ → ℕ → ℚ) (r c : ℕ) (v : ℚ) : ℕ → ℕ → ℚ :=
  fun i j => if i = r ∧ j = c then v else M i j

/-- The interior coefficient `a = (dzf[i-1] * N2[i-1] * dzc[i-1])**-1`. -/
def coeffA (dzf N2 dzc : List ℚ) (i : ℕ) : ℚ :=
  (dzf.getD (i - 1) 0 * N2.getD (i - 1) 0 * dzc.getD (i - 1) 0)⁻¹

/-- The interior coefficient `c = (dzf[i] * N2[i] * dzc[i-1])**-1`. -/
def coeffC (dzf N2 dzc : List ℚ) (i : ℕ) : ℚ :=
  (dzf.getD i 0 * N2.getD i 0 * dzc.getD (i - 1) 0)⁻¹

/-- The loop body `L[i, i-1:i+2] = [a, b, c]` of the assembly loop, with
`b = -(dzf[i-1]*N2[i-1]*dzc[i-1])**-1 - (dzf[i]*N2[i]*dzc[i-1])**-1`. -/
def interiorStep (dzf N2 dzc : List ℚ) (M : ℕ → ℕ → ℚ) (i : ℕ) : ℕ → ℕ → ℚ :=
  setEntry
    (setEntry
      (setEntry M i (i - 1) (coeffA dzf N2 dzc i))
      i i (-(coeffA dzf N2 dzc i) - coeffC dzf N2 dzc i))
    i (i + 1) (coeffC dzf N2 dzc i)

/-- Assembly of the sparse operator `L` of shape `(nz+1, nz+1)`:
the interior loop `for i in range(1, nz)`, then the surface row
`L[0, :2] = [-a, a]` with `a = (dzf[0]*N2[0]*dztop)**-1`, then the bottom
row `L[nz, -2:] = [b, -b]` with `b = (dzf[nz-1]*N2[nz-1]*dzbot)**-1`,
where `dztop = zc[0]` and `dzbot = depth - zc[-1]`. -/
def assembleL (zc N2 : List ℚ) (depth : ℚ) : ℕ → ℕ → ℚ :=
  let nz := zc.length
  let dzc := diffs zc
  let dzf := diffs (zfOf zc depth)
  let dztop := zc.getD 0 0
  let dzbot := depth - zc.getD (nz - 1) 0
  let interior := (List.range' 1 (nz - 1)).foldl (interiorStep dzf N2 dzc)
    (fun _ _ => 0)
  let a := (dzf.getD 0 0 * N2.getD 0 0 * dztop)⁻¹
  let b := (dzf.getD (nz - 1) 0 * N2.getD (nz - 1) 0 * dzbot)⁻¹
  setEntry (setEntry (setEntry (setEntry interior 0 0 (-a)) 0 1 a)
    nz (nz - 1) b) nz nz (-b)

/-- `_neutral_modes_from_N2_profile_raw` up to the external `eigs` call:
checks that `z` is strictly increasing, resolves the total depth (raising if
a supplied depth does not exceed `z[-1]`), and returns the face depths `zf`
together with the assembled operator `L`. -/
def solveRaw (z N2 : List ℚ) (depth? : Option ℚ) :
    Except String (List ℚ × (ℕ → ℕ → ℚ)) :=
  let dzc := diffs z
  if ¬ dzc.all (fun d => 0 < d) then
    .error "z should be monotonically increasing"
  else
    match depth? with
    | none =>
        let depth := resolvedDepth z none
        .ok (zfOf z depth, assembleL z N2 depth)
    | some d =>
        if d ≤ z.getD (z.length - 1) 0 then
          .error "depth should not be less than maximum z"
        else
          .ok (zfOf z d, assembleL z N2 d)

/-- The record of one invocation of the external eigen-extraction
capability.  The source line is `w, v = eigs(L, which='SM')`: the matrix,
the hard-coded `which='SM'` selector, and the (empty) list of further
keyword options actually placed in the call. -/
structure EigsInvocation where
  matrix : ℕ → ℕ → ℚ
  which : String
  extraOptions : List (String × ℚ)

/-- The `eigs` invocation built by `_neutral_modes_from_N2_profile_raw`
given the caller-supplied `**kwargs`: the source calls
`eigs(L, which='SM')`, so only `which='SM'` is ever passed, whatever
`kwargs` the caller supplied. -/
def eigsInvocationOf (L : ℕ → ℕ → ℚ) (_kwargs : List (String × ℚ)) :
    EigsInvocation :=
  { matrix := L, which := "SM", extraOptions := [] }

/-- The descending eigenvalue order used by `j = np.argsort(w)[::-1]`,
as a relation on (eigenvalue, eigenvector-column) pairs. -/
def eigDescOrder (p q : ℚ × List ℚ) : Prop := q.1 ≤ p.1

instance : DecidableRel eigDescOrder :=
  fun p q => inferInstanceAs (Decidable (q.1 ≤ p.1))

instance : IsTotal (ℚ × List ℚ) eigDescOrder :=
  ⟨fun a b => le_total b.1 a.1⟩

instance : IsTrans (ℚ × List ℚ) eigDescOrder :=
  ⟨fun _ _ _ h1 h2 => le_trans h2 h1⟩

/-- `w = w[j]; v = v[:, j]` with `j = np.argsort(w)[::-1]`: the eigenpairs
sorted by eigenvalue descending, each eigenvector column carried along with
its eigenvalue. -/
def sortEigDesc (pairs : List (ℚ × List ℚ)) : List (ℚ × List ℚ) :=
  List.insertionSort eigDescOrder pairs

/-- `Ld = (-w)**-0.5 / f0` for a single eigenvalue. -/
noncomputable def defRad (f0 w : ℚ) : ℝ :=
  ((-w : ℚ) : ℝ) ^ (-(1 : ℝ) / 2) / (f0 : ℚ)

/-- The deformation-radius sequence computed from a list of (already
sorted) real eigenvalues. -/
noncomputable def ldSeq (f0 : ℚ) (w : List ℚ) : List ℝ :=
  w.map (defRad f0)

/-- The imaginary-part tolerance `tol = 1e-20` of the reality check. -/
def imagTol : ℚ := 1 / 10 ^ 20

/-- The post-processing applied to the raw output of `eigs`, lines 156–169
of the source: assert every eigenvalue's and eigenvector entry's imaginary
part is within `tol = 1e-20` (an `AssertionError` otherwise), drop the
imaginary parts, sort descending by eigenvalue carrying the columns along,
and form `Ld = (-w)**-0.5 / f0`.  Each raw eigenpair is a complex
eigenvalue `(re, im)` with its eigenvector column of complex entries. -/
noncomputable def postprocessEigs (f0 : ℚ)
    (raw : List ((ℚ × ℚ) × List (ℚ × ℚ))) :
    Except String (List (ℚ × List ℚ) × List ℝ) :=
  if ¬ (raw.all (fun p => |p.1.2| ≤ imagTol) ∧
        raw.all (fun p => p.2.all (fun e => |e.2| ≤ imagTol))) then
    .error "imaginary parts exceed tolerance"
  else
    let realPairs := raw.map (fun p => (p.1.1, p.2.map Prod.fst))
    let sorted := sortEigDesc realPairs
    .ok (sorted, ldSeq f0 (sorted.map Prod.fst))

/-! ## Helper lemmas on masks and transitions -/

theorem countTransitions_const {b : Bool} :
    ∀ {l : List Bool}, (∀ x ∈ l, x = b) → countTransitions l = 0
  | [], _ => rfl
  | [_], _ => rfl
  | a :: c :: rest, h => by
    have ha : a = b := h a (List.mem_cons_self _ _)
    have hc : c = b := h c (List.mem_cons_of_mem _ (List.mem_cons_self _ _))
    have hrec : countTransitions (c :: rest) = 0 :=
      countTransitions_const (fun x hx => h x (List.mem_cons_of_mem _ hx))
    subst ha; subst hc
    simp [countTransitions, hrec]

theorem countTransitions_append_trailing (l1 l2 : List Bool)
    (h1 : ∀ x ∈ l1, x = false) (h2 : ∀ x ∈ l2, x = true)
    (hne1 : l1 ≠ []) (hne2 : l2 ≠ []) :
    countTransitions (l1 ++ l2) = 1 := by
  induction l1 with
  | nil => exact absurd rfl hne1
  | cons a t ih =>
    have ha : a = false := h1 a (List.mem_cons_self _ _)
    cases t with
    | nil =>
      cases l2 with
      | nil => exact absurd rfl hne2
      | cons y l2t =>
        have hy : y = true := h2 y (List.mem_cons_self _ _)
        have hrest : countTransitions (y :: l2t) = 0 := countTransitions_const h2
        subst ha; subst hy
        simp [countTransitions, hrest]
    | cons a2 t2 =>
      have ha2 : a2 = false := h1 a2 (List.mem_cons_of_mem _ (List.mem_cons_self _ _))
      have ih2 : countTransitions (a2 :: t2 ++ l2) = 1 :=
        ih (fun x hx => h1 x (List.mem_cons_of_mem _ hx)) (by simp)
      simpa [countTransitions, ha, ha2] using ih2

theorem getD_all_eq {l : List Bool} {b : Bool} (d : Bool)
    (h : ∀ x ∈ l, x = b) (hne : l ≠ []) :
    l.getD (l.length - 1) d = b := by
  have hlt : l.length - 1 < l.length := by
    cases l with
    | nil => exact absurd rfl hne
    | cons a t => simp
  rw [List.getD_eq_getElem l d hlt]
  exact h _ (List.getElem_mem hlt)

theorem filterMap_zip_all_some :
    ∀ (zs : List ℚ) (gs : List (Option ℚ)), zs.length = gs.length →
      (∀ x ∈ gs, x.isSome = true) →
      (zs.zip gs).filterMap (fun p => if p.2.isSome then some p.1 else none) = zs
  | [], _, _, _ => by simp
  | a :: t, [], hlen, _ => by simp at hlen
  | a :: t, o :: gt, hlen, hg => by
    have ho : o.isSome = true := hg o (List.mem_cons_self _ _)
    have hrec := filterMap_zip_all_some t gt (by simpa using hlen)
      (fun x hx => hg x (List.mem_cons_of_mem _ hx))
    simp [List.zip_cons_cons, List.filterMap_cons, ho, hrec]

theorem filterMap_zip_all_none :
    ∀ (zs : List ℚ) (bs : List (Option ℚ)), (∀ x ∈ bs, x.isSome = false) →
      (zs.zip bs).filterMap (fun p => if p.2.isSome then some p.1 else none) = []
  | [], _, _ => by simp
  | a :: t, [], _ => by simp
  | a :: t, o :: bt, hb => by
    have ho : o.isSome = false := hb o (List.mem_cons_self _ _)
    have hrec := filterMap_zip_all_none t bt
      (fun x hx => hb x (List.mem_cons_of_mem _ hx))
    simp [List.zip_cons_cons, List.filterMap_cons, ho, hrec]

theorem invalidMask_all_false {g : List (Option ℚ)}
    (hg : ∀ x ∈ g, x.isSome = true) : ∀ x ∈ invalidMask g, x = false := by
  intro x hx
  rcases List.mem_map.mp hx with ⟨v, hv, rfl⟩
  simp [hg v hv]

theorem invalidMask_all_true {g : List (Option ℚ)}
    (hg : ∀ x ∈ g, x.isSome = false) : ∀ x ∈ invalidMask g, x = true := by
  intro x hx
  rcases List.mem_map.mp hx with ⟨v, hv, rfl⟩
  simp [hg v hv]

/-- C2: for every pair of equal-length arrays whose non-finite N² entries
form a single trailing contiguous block of length `k = bad.length` with
`0 ≤ k < n`, the truncation returns exactly the first `n - k` entries of
both arrays, values and order unchanged (for `k = 0` this is the inputs
unchanged). -/
theorem C2_truncate_trailing_block (z : List ℚ) (g bad : List (Option ℚ))
    (hlen : z.length = g.length + bad.length)
    (hg : ∀ x ∈ g, x.isSome = true) (hbad : ∀ x ∈ bad, x.isSome = false)
    (hgne : g ≠ []) :
    maybeTruncateAboveTopography z (g ++ bad) =
      .ok (z.take g.length, (g ++ bad).take g.length) := by
  have hfor : ∀ x ∈ invalidMask g, x = false := invalidMask_all_false hg
  have hbart : ∀ x ∈ invalidMask bad, x = true := invalidMask_all_true hbad
  have hmask : invalidMask (g ++ bad) = invalidMask g ++ invalidMask bad := by
    simp [invalidMask]
  have hlen2 : z.length = (g ++ bad).length := by simp [hlen]
  have htakef : (g ++ bad).take g.length = g := List.take_left g bad
  by_cases hbne : bad = []
  · subst hbne
    have hcount : (invalidMask (g ++ [])).count true = 0 := by
      rw [List.count_eq_zero]
      intro hmem
      rw [List.append_nil] at hmem
      exact absurd (hfor true hmem) (by simp)
    have hzlen : g.length = z.length := by simp at hlen; omega
    simp only [maybeTruncateAboveTopography]
    rw [if_neg (fun h => h hlen2), if_pos hcount, htakef, hzlen,
      List.take_length, List.append_nil]
  · have hmbne : invalidMask bad ≠ [] := by
      cases bad with
      | nil => exact absurd rfl hbne
      | cons b bt => simp [invalidMask]
    have hmgne : invalidMask g ≠ [] := by
      cases g with
      | nil => exact absurd rfl hgne
      | cons b bt => simp [invalidMask]
    have hmblen : 0 < (invalidMask bad).length := List.length_pos.mpr hmbne
    have htrue_mem : true ∈ invalidMask (g ++ bad) := by
      rw [hmask]
      refine List.mem_append.mpr (Or.inr ?_)
      rcases List.exists_mem_of_ne_nil _ hmbne with ⟨x, hx⟩
      exact (hbart x hx) ▸ hx
    have hcount : ¬ ((invalidMask (g ++ bad)).count true = 0) :=
      fun h => (List.count_eq_zero.mp h) htrue_mem
    have hgetD : (invalidMask (g ++ bad)).getD
        ((invalidMask (g ++ bad)).length - 1) false = true := by
      rw [hmask]
      rw [List.getD_append_right _ _ _ _ (by simp [List.length_append]; omega)]
      have hidx : (invalidMask g ++ invalidMask bad).length - 1 -
          (invalidMask g).length = (invalidMask bad).length - 1 := by
        simp only [List.length_append]; omega
      rw [hidx]
      exact getD_all_eq false hbart hmbne
    have htrans : countTransitions (invalidMask (g ++ bad)) = 1 := by
      rw [hmask]
      exact countTransitions_append_trailing _ _ hfor hbart hmgne hmbne
    have hglen : g.length ≤ z.length := by omega
    have hsz : (z.take g.length).length = g.length := by
      rw [List.length_take]; omega
    have hzout : (z.zip (g ++ bad)).filterMap
        (fun p => if p.2.isSome then some p.1 else none) = z.take g.length := by
      conv_lhs => rw [← List.take_append_drop g.length z]
      rw [List.zip_append hsz, List.filterMap_append,
        filterMap_zip_all_some _ _ hsz hg, filterMap_zip_all_none _ _ hbad,
        List.append_nil]
    have hfout : (g ++ bad).filter (fun v => v.isSome) = g := by
      rw [List.filter_append, List.filter_eq_self.mpr (fun a ha => hg a ha),
        List.filter_eq_nil_iff.mpr (fun a ha => by simp [hbad a ha]),
        List.append_nil]
    simp only [maybeTruncateAboveTopography]
    rw [if_neg (fun h => h hlen2), if_neg hcount,
      if_neg (fun h => h.2 htrans), hzout, hfout, htakef]

/-- Witness for C2 at `z = [10,30,50,70,90]`,
`f = [some 1, some 1, some 1, none, none]`. -/
theorem C2_truncate_trailing_block_witness :
    ([10, 30, 50, 70, 90] : List ℚ).length =
      ([some 1, some 1, some 1] : List (Option ℚ)).length +
      ([none, none] : List (Option ℚ)).length ∧
    maybeTruncateAboveTopography [10, 30, 50, 70, 90]
      ([some 1, some 1, some 1] ++ [none, none]) =
      .ok (([10, 30, 50, 70, 90] : List ℚ).take 3,
        (([some 1, some 1, some 1] : List (Option ℚ)) ++ [none, none]).take 3) :=
  ⟨by decide,
   C2_truncate_trailing_block [10, 30, 50, 70, 90] [some 1, some 1, some 1]
     [none, none] (by decide) (by decide) (by decide) (by decide)⟩

/-- C9: when every N² entry of a nonempty profile is non-finite, the mask
has no valid/invalid transition, and the truncation raises
`topographic mask should be monotonic` instead of returning empty arrays. -/
theorem C9_all_invalid_error (z : List ℚ) (f : List (Option ℚ))
    (hlen : z.length = f.length) (hfne : f ≠ [])
    (hall : ∀ x ∈ f, x.isSome = false) :
    maybeTruncateAboveTopography z f =
      .error "topographic mask should be monotonic" := by
  have hmt : ∀ x ∈ invalidMask f, x = true := invalidMask_all_true hall
  have hmne : invalidMask f ≠ [] := by
    cases f with
    | nil => exact absurd rfl hfne
    | cons b bt => simp [invalidMask]
  have htrue_mem : true ∈ invalidMask f := by
    rcases List.exists_mem_of_ne_nil _ hmne with ⟨x, hx⟩
    exact (hmt x hx) ▸ hx
  have hcount : ¬ ((invalidMask f).count true = 0) :=
    fun h => (List.count_eq_zero.mp h) htrue_mem
  have hgetD : (invalidMask f).getD ((invalidMask f).length - 1) false = true :=
    getD_all_eq false hmt hmne
  have htrans : countTransitions (invalidMask f) = 0 := countTransitions_const hmt
  simp only [maybeTruncateAboveTopography]
  rw [if_neg (fun h => h hlen), if_neg hcount,
    if_pos ⟨hgetD, by simp [htrans]⟩]

/-- Witness for C9 at `z = [1, 2]`, `f = [none, none]`. -/
theorem C9_all_invalid_error_witness :
    ([1, 2] : List ℚ).length = ([none, none] : List (Option ℚ)).length ∧
    maybeTruncateAboveTopography [1, 2] [none, none] =
      .error "topographic mask should be monotonic" :=
  ⟨by decide,
   C9_all_invalid_error [1, 2] [none, none] (by decide) (by decide) (by decide)⟩

/-- Counterexample to C3 as stated: `f = [none, some 1]` has a non-finite
entry and the non-finite entries do not form a trailing contiguous block
(the last entry is finite), yet the truncation succeeds, silently dropping
the interior masked entry, instead of raising a ValidationError. -/
theorem C3_counterexample :
    (none ∈ ([none, some 1] : List (Option ℚ))) ∧
    ((([none, some 1] : List (Option ℚ)).getD 1 none).isSome = true) ∧
    maybeTruncateAboveTopography [1, 2] [none, some 1] =
      .ok ([2], [some 1]) :=
  ⟨by decide, by decide, rfl⟩

/-- C3 as amended: the truncation raises
`topographic mask should be monotonic` exactly when the *final* N² entry is
non-finite and the number of valid/invalid transitions differs from one;
when the final entry is finite, no such error is raised — the masked
entries are silently removed instead. -/
theorem C3_amended_monotonic_error (z : List ℚ) (f : List (Option ℚ))
    (hlen : z.length = f.length) :
    ((invalidMask f).getD ((invalidMask f).length - 1) false = true →
      countTransitions (invalidMask f) ≠ 1 →
      maybeTruncateAboveTopography z f =
        .error "topographic mask should be monotonic") ∧
    ((invalidMask f).getD ((invalidMask f).length - 1) false = false →
      ∃ out, maybeTruncateAboveTopography z f = .ok out) := by
  constructor
  · intro hlast htrans
    have hmne : invalidMask f ≠ [] := by
      intro hnil
      rw [hnil] at hlast
      simp [List.getD] at hlast
    have hlt : (invalidMask f).length - 1 < (invalidMask f).length := by
      have := List.length_pos.mpr hmne
      omega
    have htrue_mem : true ∈ invalidMask f := by
      rw [List.getD_eq_getElem _ _ hlt] at hlast
      exact hlast ▸ List.getElem_mem hlt
    have hcount : ¬ ((invalidMask f).count true = 0) :=
      fun h => (List.count_eq_zero.mp h) htrue_mem
    simp only [maybeTruncateAboveTopography]
    rw [if_neg (fun h => h hlen), if_neg hcount, if_pos ⟨hlast, htrans⟩]
  · intro hlast
    by_cases hcount : (invalidMask f).count true = 0
    · refine ⟨(z, f), ?_⟩
      simp only [maybeTruncateAboveTopography]
      rw [if_neg (fun h => h hlen), if_pos hcount]
    · refine ⟨((z.zip f).filterMap (fun p => if p.2.isSome then some p.1 else none),
        f.filter (fun v => v.isSome)), ?_⟩
      simp only [maybeTruncateAboveTopography]
      rw [if_neg (fun h => h hlen), if_neg hcount,
        if_neg (fun h => by rw [hlast] at h; exact absurd h.1 (by simp))]

/-- Witness for the amended C3: the error branch at
`f = [none, some 1, none]` (non-contiguous mask ending invalid) and the
no-error branch at `f = [some 1, none, some 2]` (final entry finite). -/
theorem C3_amended_monotonic_error_witness :
    (maybeTruncateAboveTopography [1, 2, 3] [none, some 1, none] =
      .error "topographic mask should be monotonic") ∧
    (∃ out, maybeTruncateAboveTopography [1, 2, 3] [some 1, none, some 2] =
      .ok out) :=
  ⟨(C3_amended_monotonic_error [1, 2, 3] [none, some 1, none]
      (by decide)).1 (by decide) (by decide),
   (C3_amended_monotonic_error [1, 2, 3] [some 1, none, some 2]
      (by decide)).2 (by decide)⟩

/-! ## Grid lemmas -/

theorem diffs_cons_cons (a b : ℚ) (t : List ℚ) :
    diffs (a :: b :: t) = (b - a) :: diffs (b :: t) := by
  simp [diffs]

theorem diffs_length (z : List ℚ) : (diffs z).length = z.length - 1 := by
  simp [diffs]

theorem diffs_getD (z : List ℚ) (i : ℕ) (h : i + 1 < z.length) :
    (diffs z).getD i 0 = z.getD (i + 1) 0 - z.getD i 0 := by
  have hlt : i < (diffs z).length := by rw [diffs_length]; omega
  rw [List.getD_eq_getElem _ _ hlt, List.getD_eq_getElem _ _ h,
    List.getD_eq_getElem _ _ (by omega : i < z.length)]
  simp [diffs]

theorem chain_lt_iff_diffs_pos :
    ∀ z : List ℚ, List.Chain' (· < ·) z ↔
      (diffs z).all (fun d => decide (0 < d)) = true
  | [] => by simp [diffs]
  | [a] => by simp [diffs]
  | a :: b :: t => by
    rw [List.chain'_cons, diffs_cons_cons, List.all_cons]
    constructor
    · rintro ⟨hab, hc⟩
      rw [Bool.and_eq_true]
      exact ⟨decide_eq_true (sub_pos.mpr hab),
        (chain_lt_iff_diffs_pos (b :: t)).mp hc⟩
    · intro h
      simp only [Bool.and_eq_true] at h
      exact ⟨sub_pos.mp (of_decide_eq_true h.1),
        (chain_lt_iff_diffs_pos (b :: t)).mpr h.2⟩

theorem zfOf_length (z : List ℚ) (depth : ℚ) (h : 1 ≤ z.length) :
    (zfOf z depth).length = z.length + 1 := by
  simp [zfOf]
  omega

theorem zfOf_getD_zero (z : List ℚ) (depth : ℚ) :
    (zfOf z depth).getD 0 0 = 0 := rfl

theorem zfOf_getD_last (z : List ℚ) (depth : ℚ) (h : 1 ≤ z.length) :
    (zfOf z depth).getD z.length 0 = depth := by
  obtain ⟨n, hn⟩ : ∃ n, z.length = n + 1 := ⟨z.length - 1, by omega⟩
  have hmids : ((z.zip z.tail).map (fun p => (p.1 + p.2) / 2)).length = n := by
    simp [List.length_zip]
    omega
  rw [zfOf, hn, List.getD_cons_succ,
    List.getD_append_right _ _ _ _ (le_of_eq hmids)]
  rw [hmids]
  simp

theorem zfOf_getD_mid (z : List ℚ) (depth : ℚ) (i : ℕ) (h1 : 1 ≤ i)
    (h2 : i ≤ z.length - 1) (hn : 2 ≤ z.length) :
    (zfOf z depth).getD i 0 = (z.getD (i - 1) 0 + z.getD i 0) / 2 := by
  obtain ⟨j, rfl⟩ : ∃ j, i = j + 1 := ⟨i - 1, by omega⟩
  simp only [Nat.add_sub_cancel]
  have hmids : ((z.zip z.tail).map (fun p => (p.1 + p.2) / 2)).length =
      z.length - 1 := by
    rw [List.length_map, List.length_zip, List.length_tail]
    omega
  have hj : j < ((z.zip z.tail).map (fun p => (p.1 + p.2) / 2)).length := by
    omega
  rw [zfOf, List.getD_cons_succ, List.getD_append _ _ _ _ hj,
    List.getD_eq_getElem _ _ hj, List.getD_eq_getElem _ _
      (by omega : j < z.length),
    List.getD_eq_getElem _ _ (by omega : j + 1 < z.length)]
  have hjz : j < z.length := by omega
  have hjt : j < z.tail.length := by simp [List.length_tail]; omega
  simp [List.getElem_zip, List.getElem_tail]

/-- C8: the solver raises `z should be monotonically increasing` whenever
the (truncated) depths are not strictly increasing, and
`depth should not be less than maximum z` whenever a supplied total depth
is at most the last depth sample; in both cases an error is returned and no
matrix is assembled. -/
theorem C8_validation_errors (z N2 : List ℚ) (depth? : Option ℚ) :
    (¬ List.Chain' (· < ·) z →
      solveRaw z N2 depth? = .error "z should be monotonically increasing") ∧
    (∀ d, List.Chain' (· < ·) z → depth? = some d →
      d ≤ z.getD (z.length - 1) 0 →
      solveRaw z N2 depth? =
        .error "depth should not be less than maximum z") := by
  constructor
  · intro hmono
    have hall : ¬ ((diffs z).all (fun d => decide (0 < d)) = true) :=
      fun h => hmono ((chain_lt_iff_diffs_pos z).mpr h)
    simp only [solveRaw]
    rw [if_pos hall]
  · intro d hmono hdep hle
    subst hdep
    have hall : (diffs z).all (fun d => decide (0 < d)) = true :=
      (chain_lt_iff_diffs_pos z).mp hmono
    simp only [solveRaw]
    rw [if_neg (fun h => h hall), if_pos hle]

/-- Witness for C8: non-monotonic depths `[2, 1]`, and a supplied depth `2`
not exceeding the last sample of `[1, 2]`. -/
theorem C8_validation_errors_witness :
    solveRaw [2, 1] [1, 1] none =
      .error "z should be monotonically increasing" ∧
    solveRaw [1, 2] [1, 1] (some 2) =
      .error "depth should not be less than maximum z" :=
  ⟨(C8_validation_errors [2, 1] [1, 1] none).1
     (fun h => absurd ((chain_lt_iff_diffs_pos _).mp h) (by norm_num [diffs])),
   (C8_validation_errors [1, 2] [1, 1] (some 2)).2 2
     ((chain_lt_iff_diffs_pos _).mpr (by norm_num [diffs])) rfl
     (by norm_num)⟩

/-- C5: on a valid input with `n ≥ 2` strictly increasing center depths,
the solver returns face depths of length `n + 1` starting at `0`, ending at
the resolved total depth, with each interior face the midpoint of the two
adjacent centers; and when the depth argument is unset the resolved total
depth is the last center plus half the last center-to-center spacing. -/
theorem C5_face_points (z N2 : List ℚ) (depth? : Option ℚ)
    (hn : 2 ≤ z.length) (hmono : List.Chain' (· < ·) z)
    (hd : ∀ d, depth? = some d → z.getD (z.length - 1) 0 < d) :
    ∃ L, solveRaw z N2 depth? = .ok (zfOf z (resolvedDepth z depth?), L) ∧
      (zfOf z (resolvedDepth z depth?)).length = z.length + 1 ∧
      (zfOf z (resolvedDepth z depth?)).getD 0 0 = 0 ∧
      (zfOf z (resolvedDepth z depth?)).getD z.length 0 =
        resolvedDepth z depth? ∧
      (∀ i, 1 ≤ i → i ≤ z.length - 1 →
        (zfOf z (resolvedDepth z depth?)).getD i 0 =
          (z.getD (i - 1) 0 + z.getD i 0) / 2) ∧
      (depth? = none →
        resolvedDepth z none =
          z.getD (z.length - 1) 0 +
            (z.getD (z.length - 1) 0 - z.getD (z.length - 2) 0) / 2) := by
  have hall : (diffs z).all (fun d => decide (0 < d)) = true :=
    (chain_lt_iff_diffs_pos z).mp hmono
  have hresolved : depth? = none →
      resolvedDepth z none =
        z.getD (z.length - 1) 0 +
          (z.getD (z.length - 1) 0 - z.getD (z.length - 2) 0) / 2 := by
    intro _
    have hidx : (diffs z).length - 1 = z.length - 2 := by
      rw [diffs_length]
      omega
    have hget : (diffs z).getD (z.length - 2) 0 =
        z.getD (z.length - 1) 0 - z.getD (z.length - 2) 0 := by
      have h1 : z.length - 2 + 1 = z.length - 1 := by omega
      rw [diffs_getD z (z.length - 2) (by omega), h1]
    rw [resolvedDepth, Option.getD_none, hidx, hget]
  refine ⟨assembleL z N2 (resolvedDepth z depth?), ?_,
    zfOf_length z _ (by omega), zfOf_getD_zero z _,
    zfOf_getD_last z _ (by omega),
    fun i h1 h2 => zfOf_getD_mid z _ i h1 h2 hn, hresolved⟩
  cases depth? with
  | none =>
      simp only [solveRaw]
      rw [if_neg (fun h => h hall)]
  | some d =>
      have hlt : z.getD (z.length - 1) 0 < d := hd d rfl
      simp only [solveRaw]
      rw [if_neg (fun h => h hall), if_neg (not_le.mpr hlt)]
      rfl

/-- Witness for C5 at the spec's end-to-end fixture:
`z = [10, 30, 50, 70, 90]` with supplied total depth `100`. -/
theorem C5_face_points_witness :
    2 ≤ ([10, 30, 50, 70, 90] : List ℚ).length ∧
    ∃ L, solveRaw [10, 30, 50, 70, 90] [1, 1, 1, 1, 1] (some 100) =
        .ok (zfOf [10, 30, 50, 70, 90]
          (resolvedDepth [10, 30, 50, 70, 90] (some 100)), L) ∧
      (zfOf [10, 30, 50, 70, 90]
        (resolvedDepth [10, 30, 50, 70, 90] (some 100))).length =
        ([10, 30, 50, 70, 90] : List ℚ).length + 1 ∧
      (zfOf [10, 30, 50, 70, 90]
        (resolvedDepth [10, 30, 50, 70, 90] (some 100))).getD 0 0 = 0 ∧
      (zfOf [10, 30, 50, 70, 90]
        (resolvedDepth [10, 30, 50, 70, 90] (some 100))).getD
          ([10, 30, 50, 70, 90] : List ℚ).length 0 =
        resolvedDepth [10, 30, 50, 70, 90] (some 100) ∧
      (∀ i, 1 ≤ i → i ≤ ([10, 30, 50, 70, 90] : List ℚ).length - 1 →
        (zfOf [10, 30, 50, 70, 90]
          (resolvedDepth [10, 30, 50, 70, 90] (some 100))).getD i 0 =
          (([10, 30, 50, 70, 90] : List ℚ).getD (i - 1) 0 +
            ([10, 30, 50, 70, 90] : List ℚ).getD i 0) / 2) ∧
      (some (100 : ℚ) = none →
        resolvedDepth [10, 30, 50, 70, 90] none =
          ([10, 30, 50, 70, 90] : List ℚ).getD
            (([10, 30, 50, 70, 90] : List ℚ).length - 1) 0 +
            (([10, 30, 50, 70, 90] : List ℚ).getD
              (([10, 30, 50, 70, 90] : List ℚ).length - 1) 0 -
             ([10, 30, 50, 70, 90] : List ℚ).getD
              (([10, 30, 50, 70, 90] : List ℚ).length - 2) 0) / 2) :=
  ⟨by decide,
   C5_face_points [10, 30, 50, 70, 90] [1, 1, 1, 1, 1] (some 100)
     (by decide) ((chain_lt_iff_diffs_pos _).mpr (by norm_num [diffs]))
     (fun d hd => by
       cases hd
       norm_num)⟩

/-! ## Matrix assembly: closed form of the row-by-row insertion -/

theorem setEntry_ne_row (M : ℕ → ℕ → ℚ) (r c : ℕ) (v : ℚ) {i : ℕ} (j : ℕ)
    (h : i ≠ r) : setEntry M r c v i j = M i j := by
  simp only [setEntry]
  rw [if_neg (fun hand => h hand.1)]

theorem foldl_interiorStep_not_mem (dzf N2 dzc : List ℚ) :
    ∀ (l : List ℕ) (M : ℕ → ℕ → ℚ) (i j : ℕ), i ∉ l →
      (l.foldl (interiorStep dzf N2 dzc) M) i j = M i j := by
  intro l
  induction l with
  | nil => intro M i j _; rfl
  | cons x t ih =>
    intro M i j h
    have hx : i ≠ x := fun he => h (he ▸ List.mem_cons_self _ _)
    have ht : i ∉ t := fun he => h (List.mem_cons_of_mem _ he)
    rw [List.foldl_cons, ih _ i j ht]
    simp only [interiorStep]
    rw [setEntry_ne_row _ _ _ _ _ hx, setEntry_ne_row _ _ _ _ _ hx,
      setEntry_ne_row _ _ _ _ _ hx]

theorem foldl_interiorStep_mem (dzf N2 dzc : List ℚ) :
    ∀ (l : List ℕ) (M : ℕ → ℕ → ℚ) (i : ℕ), i ∈ l → l.Nodup → 1 ≤ i →
      ∀ j, (l.foldl (interiorStep dzf N2 dzc) M) i j =
        if j = i - 1 then coeffA dzf N2 dzc i
        else if j = i then -(coeffA dzf N2 dzc i) - coeffC dzf N2 dzc i
        else if j = i + 1 then coeffC dzf N2 dzc i
        else M i j := by
  intro l
  induction l with
  | nil => intro M i h; exact absurd h (List.not_mem_nil i)
  | cons x t ih =>
    intro M i hmem hnd h1 j
    have hxt : x ∉ t := (List.nodup_cons.mp hnd).1
    have hndt : t.Nodup := (List.nodup_cons.mp hnd).2
    rw [List.foldl_cons]
    rcases List.mem_cons.mp hmem with heq | hmemt
    · subst heq
      rw [foldl_interiorStep_not_mem dzf N2 dzc t _ i j hxt]
      have e1 : ¬ (i - 1 = i) := by omega
      have e2 : ¬ (i - 1 = i + 1) := by omega
      have e3 : ¬ (i = i + 1) := by omega
      have e4 : ¬ (i + 1 = i) := by omega
      have e5 : ¬ (i + 1 = i - 1) := by omega
      have e6 : ¬ (i = i - 1) := by omega
      simp only [interiorStep, setEntry]
      by_cases hj1 : j = i - 1
      · have hj2 : ¬ (j = i) := by omega
        have hj3 : ¬ (j = i + 1) := by omega
        simp [hj1, hj2, hj3, e1, e2, e3, e4, e5, e6]
      · by_cases hj2 : j = i
        · have hj3 : ¬ (j = i + 1) := by omega
          simp [hj1, hj2, hj3, e1, e2, e3, e4, e5, e6]
        · by_cases hj3 : j = i + 1
          · simp [hj1, hj2, hj3, e1, e2, e3, e4, e5, e6]
          · simp [hj1, hj2, hj3, e1, e2, e3, e4, e5, e6]
    · have hne : i ≠ x := fun he => hxt (he ▸ hmemt)
      rw [ih _ i hmemt hndt h1 j]
      by_cases hj1 : j = i - 1
      · simp [hj1]
      · by_cases hj2 : j = i
        · simp [hj1, hj2]
        · by_cases hj3 : j = i + 1
          · simp [hj1, hj2, hj3]
          · simp only [if_neg hj1, if_neg hj2, if_neg hj3, interiorStep]
            rw [setEntry_ne_row _ _ _ _ _ hne, setEntry_ne_row _ _ _ _ _ hne,
              setEntry_ne_row _ _ _ _ _ hne]

/-- Closed form of the assembled operator: the value of `L[i, j]` for every
position, derived from the sequential row insertions. -/
theorem assembleL_apply (z N2 : List ℚ) (depth : ℚ) (hn : 2 ≤ z.length)
    (i j : ℕ) :
    assembleL z N2 depth i j =
      if i = 0 then
        if j = 0 then
          -(((diffs (zfOf z depth)).getD 0 0 * N2.getD 0 0 * z.getD 0 0)⁻¹)
        else if j = 1 then
          ((diffs (zfOf z depth)).getD 0 0 * N2.getD 0 0 * z.getD 0 0)⁻¹
        else 0
      else if i = z.length then
        if j = z.length - 1 then
          ((diffs (zfOf z depth)).getD (z.length - 1) 0 *
            N2.getD (z.length - 1) 0 * (depth - z.getD (z.length - 1) 0))⁻¹
        else if j = z.length then
          -(((diffs (zfOf z depth)).getD (z.length - 1) 0 *
            N2.getD (z.length - 1) 0 * (depth - z.getD (z.length - 1) 0))⁻¹)
        else 0
      else if i ≤ z.length - 1 then
        if j = i - 1 then coeffA (diffs (zfOf z depth)) N2 (diffs z) i
        else if j = i then
          -(coeffA (diffs (zfOf z depth)) N2 (diffs z) i) -
            coeffC (diffs (zfOf z depth)) N2 (diffs z) i
        else if j = i + 1 then coeffC (diffs (zfOf z depth)) N2 (diffs z) i
        else 0
      else 0 := by
  have hnz : z.length ≠ 0 := by omega
  simp only [assembleL]
  by_cases hi0 : i = 0
  · subst hi0
    rw [if_pos rfl]
    rw [setEntry_ne_row _ _ _ _ _ (by omega : (0:ℕ) ≠ z.length),
      setEntry_ne_row _ _ _ _ _ (by omega : (0:ℕ) ≠ z.length)]
    simp only [setEntry]
    by_cases hj0 : j = 0
    · have hj1 : ¬ (j = 1) := by omega
      simp [hj0, hj1]
    · by_cases hj1 : j = 1
      · simp [hj0, hj1]
      · simp only [if_neg hj0, if_neg hj1]
        rw [if_neg (fun hand => hj1 hand.2), if_neg (fun hand => hj0 hand.2)]
        exact foldl_interiorStep_not_mem _ _ _ _ _ 0 j
          (fun hm => by
            have := List.mem_range'_1.mp hm
            omega)
  · rw [if_neg hi0]
    by_cases hin : i = z.length
    · subst hin
      rw [if_pos rfl]
      have e4 : ¬ (z.length = z.length - 1) := by omega
      have e5 : ¬ (z.length - 1 = z.length) := by omega
      simp only [setEntry]
      by_cases hjn : j = z.length
      · have hjn1 : ¬ (j = z.length - 1) := by omega
        simp [hjn, hjn1, e4, e5]
      · by_cases hjn1 : j = z.length - 1
        · simp [hjn, hjn1, e4, e5]
        · rw [if_neg (fun hand => hjn hand.2),
            if_neg (fun hand => hjn1 hand.2),
            if_neg (fun hand => hnz hand.1),
            if_neg (fun hand => hnz hand.1),
            if_neg hjn1, if_neg hjn]
          exact foldl_interiorStep_not_mem _ _ _ _ _ z.length j
            (fun hm => by
              have := List.mem_range'_1.mp hm
              omega)
    · rw [if_neg hin]
      rw [setEntry_ne_row _ _ _ _ _ hin, setEntry_ne_row _ _ _ _ _ hin,
        setEntry_ne_row _ _ _ _ _ hi0, setEntry_ne_row _ _ _ _ _ hi0]
      by_cases hile : i ≤ z.length - 1
      · rw [if_pos hile]
        have hmem : i ∈ List.range' 1 (z.length - 1) :=
          List.mem_range'_1.mpr ⟨by omega, by omega⟩
        rw [foldl_interiorStep_mem _ _ _ _ _ i hmem (List.nodup_range' _ _)
          (by omega) j]
      · rw [if_neg hile]
        rw [foldl_interiorStep_not_mem _ _ _ _ _ i j
          (fun hm => by
            have := List.mem_range'_1.mp hm
            omega)]

/-- C1: on a valid truncated profile with `n ≥ 2` strictly increasing
centers and resolved total depth, the assembled `(n+1) × (n+1)` operator
has exactly the claimed entries: interior row `i` holds
`a = 1/(dzf[i-1]·N2[i-1]·dzc[i-1])`, `b = -(a + c)`,
`c = 1/(dzf[i]·N2[i]·dzc[i-1])` at columns `i-1, i, i+1` and zero
elsewhere; row 0 holds `[-a, a]` with `a = 1/(dzf[0]·N2[0]·dztop)` at
columns 0, 1; row `n` holds `[b, -b]` with `b = 1/(dzf[n-1]·N2[n-1]·dzbot)`
at columns `n-1, n`. -/
theorem C1_matrix_entries (z N2 : List ℚ) (depth : ℚ) (hn : 2 ≤ z.length)
    (hmono : List.Chain' (· < ·) z) (hdep : z.getD (z.length - 1) 0 < depth) :
    (∀ i, 1 ≤ i → i ≤ z.length - 1 →
      assembleL z N2 depth i (i - 1) =
        ((diffs (zfOf z depth)).getD (i - 1) 0 * N2.getD (i - 1) 0 *
          (diffs z).getD (i - 1) 0)⁻¹ ∧
      assembleL z N2 depth i i =
        -(((diffs (zfOf z depth)).getD (i - 1) 0 * N2.getD (i - 1) 0 *
            (diffs z).getD (i - 1) 0)⁻¹ +
          ((diffs (zfOf z depth)).getD i 0 * N2.getD i 0 *
            (diffs z).getD (i - 1) 0)⁻¹) ∧
      assembleL z N2 depth i (i + 1) =
        ((diffs (zfOf z depth)).getD i 0 * N2.getD i 0 *
          (diffs z).getD (i - 1) 0)⁻¹ ∧
      ∀ j, j ≤ z.length → j ≠ i - 1 → j ≠ i → j ≠ i + 1 →
        assembleL z N2 depth i j = 0) ∧
    (assembleL z N2 depth 0 0 =
        -(((diffs (zfOf z depth)).getD 0 0 * N2.getD 0 0 * z.getD 0 0)⁻¹) ∧
      assembleL z N2 depth 0 1 =
        ((diffs (zfOf z depth)).getD 0 0 * N2.getD 0 0 * z.getD 0 0)⁻¹ ∧
      ∀ j, j ≤ z.length → 2 ≤ j → assembleL z N2 depth 0 j = 0) ∧
    (assembleL z N2 depth z.length (z.length - 1) =
        ((diffs (zfOf z depth)).getD (z.length - 1) 0 *
          N2.getD (z.length - 1) 0 * (depth - z.getD (z.length - 1) 0))⁻¹ ∧
      assembleL z N2 depth z.length z.length =
        -(((diffs (zfOf z depth)).getD (z.length - 1) 0 *
          N2.getD (z.length - 1) 0 * (depth - z.getD (z.length - 1) 0))⁻¹) ∧
      ∀ j, j < z.length - 1 → assembleL z N2 depth z.length j = 0) := by
  refine ⟨fun i h1 h2 => ?_, ⟨?_, ?_, fun j hjle h2j => ?_⟩,
    ?_, ?_, fun j hjlt => ?_⟩
  · have hne0 : ¬ (i = 0) := by omega
    have hnen : ¬ (i = z.length) := by omega
    refine ⟨?_, ?_, ?_, fun j hjle hj1 hj2 hj3 => ?_⟩
    · rw [assembleL_apply z N2 depth hn, if_neg hne0, if_neg hnen,
        if_pos h2, if_pos rfl]
      rfl
    · rw [assembleL_apply z N2 depth hn, if_neg hne0, if_neg hnen,
        if_pos h2, if_neg (by omega : ¬ (i = i - 1)), if_pos rfl]
      simp only [coeffA, coeffC]
      ring
    · rw [assembleL_apply z N2 depth hn, if_neg hne0, if_neg hnen,
        if_pos h2, if_neg (by omega : ¬ (i + 1 = i - 1)),
        if_neg (by omega : ¬ (i + 1 = i)), if_pos rfl]
      rfl
    · rw [assembleL_apply z N2 depth hn, if_neg hne0, if_neg hnen,
        if_pos h2, if_neg hj1, if_neg hj2, if_neg hj3]
  · rw [assembleL_apply z N2 depth hn, if_pos rfl, if_pos rfl]
  · rw [assembleL_apply z N2 depth hn, if_pos rfl,
      if_neg (by omega : ¬ ((1:ℕ) = 0)), if_pos rfl]
  · rw [assembleL_apply z N2 depth hn, if_pos rfl,
      if_neg (by omega : ¬ (j = 0)), if_neg (by omega : ¬ (j = 1))]
  · rw [assembleL_apply z N2 depth hn,
      if_neg (by omega : ¬ (z.length = 0)), if_pos rfl, if_pos rfl]
  · rw [assembleL_apply z N2 depth hn,
      if_neg (by omega : ¬ (z.length = 0)), if_pos rfl,
      if_neg (by omega : ¬ (z.length = z.length - 1)), if_pos rfl]
  · rw [assembleL_apply z N2 depth hn,
      if_neg (by omega : ¬ (z.length = 0)), if_pos rfl,
      if_neg (by omega : ¬ (j = z.length - 1)),
      if_neg (by omega : ¬ (j = z.length))]

/-- Witness for C1 at `z = [10,30,50,70,90]`, `N2 = [1,1,1,1,1]`,
`depth = 100`: an interior entry, a surface-row zero, and the bottom-corner
entry. -/
theorem C1_matrix_entries_witness :
    assembleL [10, 30, 50, 70, 90] [1, 1, 1, 1, 1] 100 2 1 =
      ((diffs (zfOf [10, 30, 50, 70, 90] 100)).getD 1 0 *
        ([1, 1, 1, 1, 1] : List ℚ).getD 1 0 *
        (diffs [10, 30, 50, 70, 90]).getD 1 0)⁻¹ ∧
    assembleL [10, 30, 50, 70, 90] [1, 1, 1, 1, 1] 100 0 3 = 0 ∧
    assembleL [10, 30, 50, 70, 90] [1, 1, 1, 1, 1] 100 5 5 =
      -(((diffs (zfOf [10, 30, 50, 70, 90] 100)).getD 4 0 *
        ([1, 1, 1, 1, 1] : List ℚ).getD 4 0 *
        (100 - ([10, 30, 50, 70, 90] : List ℚ).getD 4 0))⁻¹) := by
  have h := C1_matrix_entries [10, 30, 50, 70, 90] [1, 1, 1, 1, 1] 100
    (by decide) ((chain_lt_iff_diffs_pos _).mpr (by norm_num [diffs]))
    (by norm_num)
  exact ⟨(h.1 2 (by norm_num) (by norm_num)).1,
    h.2.1.2.2 3 (by norm_num) (by norm_num),
    h.2.2.2.1⟩

/-- C10: every row of the assembled operator sums to zero, so the discrete
Neumann operator annihilates constant vectors (the barotropic mode has
eigenvalue zero). -/
theorem C10_rows_sum_zero (z N2 : List ℚ) (depth : ℚ) (hn : 2 ≤ z.length)
    (hmono : List.Chain' (· < ·) z) (hdep : z.getD (z.length - 1) 0 < depth) :
    ∀ i, i ≤ z.length →
      ∑ j ∈ Finset.range (z.length + 1), assembleL z N2 depth i j = 0 := by
  intro i hi
  by_cases hi0 : i = 0
  · subst hi0
    have hsub : ({0, 1} : Finset ℕ) ⊆ Finset.range (z.length + 1) := by
      intro x hx
      rcases Finset.mem_insert.mp hx with h | h
      · rw [h]; exact Finset.mem_range.mpr (by omega)
      · rw [Finset.mem_singleton.mp h]; exact Finset.mem_range.mpr (by omega)
    have hzero : ∀ x ∈ Finset.range (z.length + 1),
        x ∉ ({0, 1} : Finset ℕ) → assembleL z N2 depth 0 x = 0 := by
      intro x _ hnx
      have hx0 : ¬ (x = 0) := fun h => hnx (by simp [h])
      have hx1 : ¬ (x = 1) := fun h => hnx (by simp [h])
      rw [assembleL_apply z N2 depth hn, if_pos rfl, if_neg hx0, if_neg hx1]
    rw [← Finset.sum_subset hsub hzero,
      Finset.sum_pair (by omega : (0 : ℕ) ≠ 1),
      assembleL_apply z N2 depth hn 0 0, assembleL_apply z N2 depth hn 0 1,
      if_pos rfl, if_pos rfl, if_pos rfl,
      if_neg (by omega : ¬ ((1:ℕ) = 0)), if_pos rfl]
    ring
  · by_cases hin : i = z.length
    · subst hin
      have hsub : ({z.length - 1, z.length} : Finset ℕ) ⊆
          Finset.range (z.length + 1) := by
        intro x hx
        rcases Finset.mem_insert.mp hx with h | h
        · rw [h]; exact Finset.mem_range.mpr (by omega)
        · rw [Finset.mem_singleton.mp h]; exact Finset.mem_range.mpr (by omega)
      have hzero : ∀ x ∈ Finset.range (z.length + 1),
          x ∉ ({z.length - 1, z.length} : Finset ℕ) →
          assembleL z N2 depth z.length x = 0 := by
        intro x _ hnx
        have hx0 : ¬ (x = z.length - 1) := fun h => hnx (by simp [h])
        have hx1 : ¬ (x = z.length) := fun h => hnx (by simp [h])
        rw [assembleL_apply z N2 depth hn,
          if_neg (by omega : ¬ (z.length = 0)), if_pos rfl,
          if_neg hx0, if_neg hx1]
      rw [← Finset.sum_subset hsub hzero,
        Finset.sum_pair (by omega : z.length - 1 ≠ z.length),
        assembleL_apply z N2 depth hn z.length (z.length - 1),
        assembleL_apply z N2 depth hn z.length z.length,
        if_neg (by omega : ¬ (z.length = 0)), if_pos rfl, if_pos rfl,
        if_neg (by omega : ¬ (z.length = 0)), if_pos rfl,
        if_neg (by omega : ¬ (z.length = z.length - 1)), if_pos rfl]
      ring
    · have h1 : 1 ≤ i := by omega
      have h2 : i ≤ z.length - 1 := by omega
      have hsub : ({i - 1, i, i + 1} : Finset ℕ) ⊆
          Finset.range (z.length + 1) := by
        intro x hx
        rcases Finset.mem_insert.mp hx with h | h
        · rw [h]; exact Finset.mem_range.mpr (by omega)
        · rcases Finset.mem_insert.mp h with h | h
          · rw [h]; exact Finset.mem_range.mpr (by omega)
          · rw [Finset.mem_singleton.mp h]
            exact Finset.mem_range.mpr (by omega)
      have hzero : ∀ x ∈ Finset.range (z.length + 1),
          x ∉ ({i - 1, i, i + 1} : Finset ℕ) →
          assembleL z N2 depth i x = 0 := by
        intro x _ hnx
        have hx0 : ¬ (x = i - 1) := fun h => hnx (by simp [h])
        have hx1 : ¬ (x = i) := fun h => hnx (by simp [h])
        have hx2 : ¬ (x = i + 1) := fun h => hnx (by simp [h])
        rw [assembleL_apply z N2 depth hn, if_neg hi0, if_neg hin,
          if_pos h2, if_neg hx0, if_neg hx1, if_neg hx2]
      rw [← Finset.sum_subset hsub hzero,
        Finset.sum_insert (by simp; omega),
        Finset.sum_insert (by simp), Finset.sum_singleton,
        assembleL_apply z N2 depth hn i (i - 1),
        assembleL_apply z N2 depth hn i i,
        assembleL_apply z N2 depth hn i (i + 1),
        if_neg hi0, if_neg hin, if_pos h2, if_pos rfl,
        if_neg hi0, if_neg hin, if_pos h2,
        if_neg (by omega : ¬ (i = i - 1)), if_pos rfl,
        if_neg hi0, if_neg hin, if_pos h2,
        if_neg (by omega : ¬ (i + 1 = i - 1)),
        if_neg (by omega : ¬ (i + 1 = i)), if_pos rfl]
      ring

/-- Witness for C10: row 2 of the operator for the end-to-end fixture sums
to zero. -/
theorem C10_rows_sum_zero_witness :
    ∑ j ∈ Finset.range 6,
      assembleL [10, 30, 50, 70, 90] [1, 1, 1, 1, 1] 100 2 j = 0 :=
  C10_rows_sum_zero [10, 30, 50, 70, 90] [1, 1, 1, 1, 1] 100 (by decide)
    ((chain_lt_iff_diffs_pos _).mpr (by norm_num [diffs])) (by norm_num)
    2 (by norm_num)

/-! ## Eigenpair post-processing -/

theorem defRad_eq_sqrt (f0 w : ℚ) (h : w < 0) :
    defRad f0 w = (Real.sqrt (-(w : ℝ)))⁻¹ / (f0 : ℝ) := by
  have hpos : (0 : ℝ) ≤ -(w : ℝ) := by
    have : (w : ℝ) < 0 := by exact_mod_cast h
    linarith
  rw [defRad, Real.sqrt_eq_rpow]
  push_cast
  rw [show (-(1 : ℝ) / 2) = -(1 / 2 : ℝ) by ring, Real.rpow_neg hpos]

theorem defRad_strictMono (f0 w1 w2 : ℚ) (hf0 : 0 < f0) (h1 : w1 < 0)
    (h2 : w2 < 0) (hlt : w2 < w1) : defRad f0 w2 < defRad f0 w1 := by
  rw [defRad_eq_sqrt f0 w1 h1, defRad_eq_sqrt f0 w2 h2]
  have hf0R : (0 : ℝ) < (f0 : ℝ) := by exact_mod_cast hf0
  have hw1 : (0 : ℝ) < -(w1 : ℝ) := by
    have : (w1 : ℝ) < 0 := by exact_mod_cast h1
    linarith
  have hww : -(w1 : ℝ) < -(w2 : ℝ) := by
    have : (w2 : ℝ) < (w1 : ℝ) := by exact_mod_cast hlt
    linarith
  have hsq : Real.sqrt (-(w1 : ℝ)) < Real.sqrt (-(w2 : ℝ)) :=
    Real.sqrt_lt_sqrt (le_of_lt hw1) hww
  have hsq1 : 0 < Real.sqrt (-(w1 : ℝ)) := Real.sqrt_pos.mpr hw1
  exact div_lt_div_of_pos_right (inv_strictAnti₀ hsq1 hsq) hf0R

theorem ldSeq_chain_of_chain (f0 : ℚ) (hf0 : 0 < f0) :
    ∀ ws : List ℚ, List.Chain' (· > ·) ws → (∀ w ∈ ws, w < 0) →
      List.Chain' (· > ·) (ldSeq f0 ws) := by
  intro ws
  induction ws with
  | nil => intro _ _; simp [ldSeq]
  | cons a t ih =>
    intro hch hmem
    cases t with
    | nil => simp [ldSeq]
    | cons b t2 =>
      rcases List.chain'_cons.mp hch with ⟨hab, hrest⟩
      have hrec := ih hrest (fun w hw => hmem w (List.mem_cons_of_mem _ hw))
      rw [ldSeq, List.map_cons]
      rw [ldSeq] at hrec
      refine List.chain'_cons.mpr ⟨?_, ?_⟩
      · exact defRad_strictMono f0 a b hf0
          (hmem a (List.mem_cons_self _ _))
          (hmem b (List.mem_cons_of_mem _ (List.mem_cons_self _ _))) hab
      · exact hrec

theorem chain_gt_of_sorted_nodup :
    ∀ l : List (ℚ × List ℚ), List.Sorted eigDescOrder l →
      (l.map Prod.fst).Nodup → List.Chain' (fun p q => q.1 < p.1) l := by
  intro l
  induction l with
  | nil => intro _ _; simp
  | cons a t ih =>
    intro hs hn
    cases t with
    | nil => simp
    | cons b t2 =>
      have hab : eigDescOrder a b := (List.sorted_cons.mp hs).1 b
        (List.mem_cons_self _ _)
      have hane : a.1 ≠ b.1 := by
        simp only [List.map_cons] at hn
        have hnm := (List.nodup_cons.mp hn).1
        intro he
        exact hnm (List.mem_cons.mpr (Or.inl he))
      refine List.chain'_cons.mpr ⟨lt_of_le_of_ne hab (fun he => hane he.symm), ?_⟩
      exact ih (List.sorted_cons.mp hs).2 (List.nodup_cons.mp hn).2

/-- Counterexample to C4 as stated: with a repeated eigenvalue `-1` the
post-processed deformation-radius sequence is `[1, 1]`, which is not
strictly descending, so the returned sequence is not *always* strictly
descending. -/
theorem C4_counterexample :
    sortEigDesc [(-1, [1]), (-1, [2])] = [(-1, [1]), (-1, [2])] ∧
    ¬ List.Chain' (· > ·)
      (ldSeq 1 ((sortEigDesc [(-1, [1]), (-1, [2])]).map Prod.fst)) := by
  have hs : sortEigDesc [((-1 : ℚ), [(1 : ℚ)]), (-1, [2])] =
      [(-1, [1]), (-1, [2])] := by
    simp [sortEigDesc, List.insertionSort, List.orderedInsert, eigDescOrder]
  refine ⟨hs, ?_⟩
  intro h
  rw [hs] at h
  simp only [List.map_cons, List.map_nil, ldSeq, List.chain'_pair] at h
  exact absurd h (lt_irrefl _)

/-- C4 as amended: the post-processing sorts the eigenpairs into a
permutation of the input that is descending by eigenvalue (eigenvector
columns carried along with their eigenvalues), converts through
`Ld = (-w)^(-1/2) / f0`, and the radii are strictly descending whenever the
retained eigenvalues are pairwise distinct and all negative and `f0 > 0`
(the code itself performs no such check). -/
theorem C4_sort_and_radii (pairs : List (ℚ × List ℚ)) (f0 : ℚ)
    (hnodup : (pairs.map Prod.fst).Nodup)
    (hneg : ∀ w ∈ pairs.map Prod.fst, w < 0) (hf0 : 0 < f0) :
    (sortEigDesc pairs).Perm pairs ∧
    List.Sorted eigDescOrder (sortEigDesc pairs) ∧
    List.Chain' (· > ·) (ldSeq f0 ((sortEigDesc pairs).map Prod.fst)) := by
  have hperm : (sortEigDesc pairs).Perm pairs := List.perm_insertionSort _ _
  have hsorted : List.Sorted eigDescOrder (sortEigDesc pairs) :=
    List.sorted_insertionSort _ _
  refine ⟨hperm, hsorted, ?_⟩
  have hpermmap : ((sortEigDesc pairs).map Prod.fst).Perm (pairs.map Prod.fst) :=
    hperm.map Prod.fst
  have hnodup2 : ((sortEigDesc pairs).map Prod.fst).Nodup :=
    hpermmap.nodup_iff.mpr hnodup
  have hneg2 : ∀ w ∈ (sortEigDesc pairs).map Prod.fst, w < 0 :=
    fun w hw => hneg w (hpermmap.mem_iff.mp hw)
  have hchain : List.Chain' (fun p q => q.1 < p.1) (sortEigDesc pairs) :=
    chain_gt_of_sorted_nodup _ hsorted hnodup2
  have hchainw : List.Chain' (· > ·) ((sortEigDesc pairs).map Prod.fst) := by
    rw [List.chain'_map]
    exact hchain
  exact ldSeq_chain_of_chain f0 hf0 _ hchainw hneg2

/-- Witness for the amended C4 at eigenpairs `[(-4, [1]), (-1, [2])]` with
`f0 = 1`. -/
theorem C4_sort_and_radii_witness :
    (sortEigDesc [(-4, [1]), (-1, [2])]).Perm [(-4, [1]), (-1, [2])] ∧
    List.Sorted eigDescOrder (sortEigDesc [(-4, [1]), (-1, [2])]) ∧
    List.Chain' (· > ·)
      (ldSeq 1 ((sortEigDesc [(-4, [1]), (-1, [2])]).map Prod.fst)) :=
  C4_sort_and_radii [(-4, [1]), (-1, [2])] 1 (by decide) (by decide)
    (by decide)

/-- Counterexample to C6: a retained eigenvalue `w = 0 ≥ 0` passes the
post-processing without any error being raised: the call returns `.ok`
(the radius formula is applied to it silently) rather than surfacing a
NumericalIntegrityError. -/
theorem C6_counterexample :
    (0 : ℚ) ≥ 0 ∧
    postprocessEigs 1 [((0, 0), [(1, 0)])] =
      .ok ([(0, [1])], [defRad 1 0]) := by
  refine ⟨le_refl 0, ?_⟩
  simp [postprocessEigs, imagTol, sortEigDesc, List.insertionSort, ldSeq]

/-- C6 as amended: the post-processing performs no sign check on the
retained eigenvalues — whenever the imaginary-part (reality) check passes
it returns `.ok`, even if some eigenvalue is `≥ 0`; the reality check is
the only error it can raise. -/
theorem C6_amended_no_sign_check (f0 : ℚ)
    (raw : List ((ℚ × ℚ) × List (ℚ × ℚ))) :
    (raw.all (fun p => |p.1.2| ≤ imagTol) = true →
      raw.all (fun p => p.2.all (fun e => |e.2| ≤ imagTol)) = true →
      ∃ out, postprocessEigs f0 raw = .ok out) ∧
    (¬ (raw.all (fun p => |p.1.2| ≤ imagTol) = true ∧
        raw.all (fun p => p.2.all (fun e => |e.2| ≤ imagTol)) = true) →
      postprocessEigs f0 raw = .error "imaginary parts exceed tolerance") := by
  constructor
  · intro h1 h2
    refine ⟨(sortEigDesc (raw.map (fun p => (p.1.1, p.2.map Prod.fst))),
      ldSeq f0 ((sortEigDesc
        (raw.map (fun p => (p.1.1, p.2.map Prod.fst)))).map Prod.fst)), ?_⟩
    simp only [postprocessEigs]
    rw [if_neg (fun hand => hand ⟨h1, h2⟩)]
  · intro hnot
    simp only [postprocessEigs]
    rw [if_pos hnot]

/-- Witness for the amended C6: a single real eigenpair with eigenvalue
`0 ≥ 0` goes through with no error. -/
theorem C6_amended_no_sign_check_witness :
    ∃ out, postprocessEigs 1 [((0, 0), [(1, 0)])] = .ok out :=
  (C6_amended_no_sign_check 1 [((0, 0), [(1, 0)])]).1
    (by norm_num [imagTol]) (by norm_num [imagTol])

/-- C7 (documented but not implemented): the `eigs` invocation assembled by
the solver contains only the hard-coded `which='SM'` selector; the
caller-supplied solver options never reach it — the invocation is the same
whatever `kwargs` were passed. -/
theorem C7_kwargs_dropped (L : ℕ → ℕ → ℚ) (kwargs : List (String × ℚ)) :
    eigsInvocationOf L kwargs = eigsInvocationOf L [] ∧
    (eigsInvocationOf L kwargs).extraOptions = [] ∧
    (eigsInvocationOf L kwargs).which = "SM" :=
  ⟨rfl, rfl, rfl⟩

end Oceanmodes
